import Mathlib

/-!
Verification of the attribute encoding/serialization subsystem of
`watchful/attributes.py`: the compact numeric encoder (`base64`,
`base64str`), the span encoder (`contig_spans`), the streaming attribute
writer (`writer`), and the character-to-byte span offset reconciliation
(`adjust_span_offsets_from_char_to_byte`).

Python integers are modelled as `Int` (or `Nat` where the source can only
produce non-negative values), Python strings as `String`/`List Char`,
Python dicts as insertion-ordered association lists, raised exceptions as
`Except String`.
-/

namespace Watchful

/-! ## Constants (attributes.py lines 34-49) -/

def BASE : Nat := 64

def COMPRESSED_LEN : Nat := 8

/-- `NUMERALS`: dict mapping `i ∈ 0..63` to `chr(48 + i)`,
i.e. `"0123456789:;<=>?@ABCDEFGHIJKLMNOPQRSTUVWXYZ[\]^_`abcdefghijklmno"`. -/
def NUMERALS (i : Nat) : Char := Char.ofNat (48 + i)

/-- `COMPRESSED`: dict mapping `i ∈ 0..7` to `chr(35 + i)`, i.e. `"#$%&'()*"`. -/
def COMPRESSED (i : Nat) : Char := Char.ofNat (35 + i)

/-! ## `base64` (attributes.py lines 100-119)

```
if num == 0: return NUMERALS[0]
ret = ""
while num > 0:
    ret += NUMERALS[num % BASE]
    num = num // BASE
return ret[::-1]
```
-/

/-- The `while num > 0` loop of `base64`, accumulating digit characters onto
the end of `ret` exactly as the Python loop does. -/
def base64loop (num : Int) (ret : List Char) : List Char :=
  if 0 < num then
    base64loop (num / 64) (ret ++ [NUMERALS (num % 64).toNat])
  else
    ret
termination_by num.toNat
decreasing_by
  rename_i h
  omega

/-- `base64(num)`: the digit encoder, as a list of characters. -/
def base64 (num : Int) : List Char :=
  if num = 0 then [NUMERALS 0]
  else (base64loop num []).reverse

/-! ## `base64str` (attributes.py lines 122-185) -/

/-- `flush_buf`: appends the buffered equal-length codes to `ret`, as one
compressed token when there are at least two codes and the code length is
within the compressible range, as-is otherwise. `compress_idx` is
`len(buf[0]) - 1` in `Nat`; for codes of non-negative inputs the code is
nonempty, so the truncated subtraction agrees with Python's. -/
def flush_buf (ret buf : List (List Char)) : List (List Char) :=
  if buf.length = 1 then ret ++ [buf.headD []]
  else if 1 < buf.length then
    let compress_idx := (buf.headD []).length - 1
    if compress_idx < COMPRESSED_LEN then
      ret ++ [COMPRESSED compress_idx :: buf.flatten]
    else
      ret ++ buf
  else ret

/-- `push_buf`: appends `s` to the buffer if it is empty or holds codes of
the same length, otherwise flushes the buffer and starts a new one with `s`.
Returns the updated `(ret, buf)` pair. -/
def push_buf (ret buf : List (List Char)) (s : List Char) :
    List (List Char) × List (List Char) :=
  if buf.length = 0 ∨ s.length = (buf.headD []).length then (ret, buf ++ [s])
  else (flush_buf ret buf, [s])

/-- The `for x in list_of_integers` loop of `base64str` followed by the final
`flush_buf()`: produces the token list `ret` that is joined with commas. -/
def base64strAux (ret buf : List (List Char)) : List Int → List (List Char)
  | [] => flush_buf ret buf
  | x :: xs =>
    let rb := push_buf ret buf (base64 x)
    base64strAux rb.1 rb.2 xs

/-- The token list of `base64str` before the final `",".join`. -/
def base64strTokens (l : List Int) : List (List Char) :=
  base64strAux [] [] l

/-- `base64str(list_of_integers)`: the sequence encoder. -/
def base64str (l : List Int) : String :=
  ⟨List.intercalate [','] (base64strTokens l)⟩

/-! ## `contig_spans` (attributes.py lines 188-207) -/

/-- The `for a, b in spans` loop of `contig_spans`, carrying `offset`. -/
def contigSpansAux : List (Int × Int) → Int → List Int
  | [], _ => []
  | (a, b) :: rest, offset => (a - offset) :: (b - a) :: contigSpansAux rest b

/-- `contig_spans(spans)`: gap/length delta encoding of a span list. -/
def contig_spans (spans : List (Int × Int)) : List Int :=
  contigSpansAux spans 0

/-! ## Data model for the writer (attributes.py lines 210-316)

An attribute value in `attr_vals` is `None`, a number, a string, or a value
of some other type (`other` carries only its truthiness, which is all the
source inspects before raising). -/

inductive AttrVal where
  | none
  | num (n : Int)
  | str (s : String)
  | other (truthy : Bool)
deriving DecidableEq, Repr

/-- One `span_data` tuple `(spans, attr_vals, name)` of a cell; `attr_vals`
is an insertion-ordered association list, like a Python dict. -/
structure AttributeGroup where
  spans : List (Int × Int)
  attr_vals : List (String × List AttrVal)
  name : Option String
deriving DecidableEq, Repr

/-- The writer's dictionaries: `attrs` maps attribute name to id, `values`
maps attribute name to its per-attribute value-to-id dict. Both are
insertion-ordered association lists. -/
structure WriterState where
  attrs : List (String × Nat)
  values : List (String × List (String × Nat))
deriving DecidableEq, Repr

/-- JSON values as emitted by `write_jsonl` (only the shapes the writer
produces: strings, non-negative integers, arrays, objects). -/
inductive J where
  | str (s : String)
  | num (n : Nat)
  | arr (l : List J)
  | obj (l : List (String × J))

instance {ε α : Type} [DecidableEq ε] [DecidableEq α] : DecidableEq (Except ε α) :=
  fun a b =>
    match a, b with
    | .error e, .error e' =>
      if h : e = e' then isTrue (by rw [h]) else isFalse (fun hc => h (Except.error.inj hc))
    | .error _, .ok _ => isFalse (fun hc => Except.noConfusion hc)
    | .ok _, .error _ => isFalse (fun hc => Except.noConfusion hc)
    | .ok x, .ok y =>
      if h : x = y then isTrue (by rw [h]) else isFalse (fun hc => h (Except.ok.inj hc))

/-- Python dict assignment `d[k] = v` on an association list: replaces the
value at an existing key in place, appends a new key at the end. -/
def aupdate {α : Type} (l : List (String × α)) (k : String) (v : α) :
    List (String × α) :=
  match l with
  | [] => [(k, v)]
  | (k', v') :: rest => if k' = k then (k, v) :: rest else (k', v') :: aupdate rest k v

/-- Truthiness of an attribute value, as Python's `if val`. -/
def truthy : AttrVal → Bool
  | .none => false
  | .num n => n != 0
  | .str s => s != ""
  | .other b => b

/-- Message of the exception raised for a value of disallowed type
(attributes.py lines 278-281); the source appends the offending value
itself to this literal. -/
def ATTR_ERR : String := "Attribute value must be a string, None or a number. Was: "

/-- The first two branches of the value loop (attributes.py lines 274-281):
numbers are stringified, truthy non-string non-numbers raise. -/
def coerceVal : AttrVal → Except String AttrVal
  | .num n => .ok (.str (toString n))
  | .other true => .error ATTR_ERR
  | v => .ok v

/-- The `for val in vals` dictionary-update loop (attributes.py lines
274-286) for one attribute: threads the attribute's value dict `dv` and the
values staged for the `"$"` batch. -/
def procVals (dv : List (String × Nat)) (staged : List String) :
    List AttrVal → Except String (List (String × Nat) × List String)
  | [] => .ok (dv, staged)
  | v :: rest =>
    match coerceVal v with
    | .error e => .error e
    | .ok (.str s) =>
      if s ≠ "" ∧ (List.lookup s dv).isNone then
        procVals (dv ++ [(s, dv.length + 1)]) (staged ++ [s]) rest
      else
        procVals dv staged rest
    | .ok _ => procVals dv staged rest

/-- The `for attr, vals in attr_vals.items()` dictionary loop of one group
(attributes.py lines 269-286): threads `attrs`, `values`, `new_attrs`,
`new_values`. -/
def procAttrVals (attrs : List (String × Nat))
    (values : List (String × List (String × Nat)))
    (new_attrs : List String) (new_values : List (String × List String)) :
    List (String × List AttrVal) →
    Except String (List (String × Nat) × List (String × List (String × Nat)) ×
      List String × List (String × List String))
  | [] => .ok (attrs, values, new_attrs, new_values)
  | (attr, vals) :: rest =>
    let st1 :=
      if (List.lookup attr attrs).isNone then
        (attrs ++ [(attr, attrs.length + 1)], aupdate values attr [], new_attrs ++ [attr])
      else (attrs, values, new_attrs)
    match procVals ((List.lookup attr st1.2.1).getD []) [] vals with
    | .error e => .error e
    | .ok r =>
      let new_values' :=
        if r.2 = [] then new_values
        else
          match List.lookup attr new_values with
          | some old => aupdate new_values attr (old ++ r.2)
          | Option.none => new_values ++ [(attr, r.2)]
      procAttrVals st1.1 (aupdate st1.2.1 attr r.1) st1.2.2 new_values' rest

/-- The list comprehension `[values[attr][val] if val else 0 for val in vals]`
(attributes.py line 300). A falsy value encodes as the sentinel `0`; a truthy
value is looked up in the attribute's value dict, whose keys are the
stringified values, so a truthy value that is not a string (e.g. a number
left unstringified by this second loop) raises `KeyError`. -/
def encodeVals (dv : List (String × Nat)) : List AttrVal → Except String (List Int)
  | [] => .ok []
  | v :: rest =>
    match
      (if truthy v then
        match v with
        | .str s =>
          match List.lookup s dv with
          | some i => Except.ok (Int.ofNat i)
          | Option.none => Except.error "KeyError"
        | _ => Except.error "KeyError"
      else Except.ok 0 : Except String Int) with
    | .error e => .error e
    | .ok code =>
      match encodeVals dv rest with
      | .error e => .error e
      | .ok rest' => .ok (code :: rest')

/-- The `span_val` loop of one group (attributes.py lines 292-301): for each
attribute, assert the span/value length precondition, then append the
attribute id and the encoded value ids. -/
def spanValLoop (attrs : List (String × Nat))
    (values : List (String × List (String × Nat))) (nSpans : Nat)
    (span_val : List J) :
    List (String × List AttrVal) → Except String (List J)
  | [] => .ok span_val
  | (attr, vals) :: rest =>
    if nSpans = vals.length then
      match List.lookup attr attrs with
      | Option.none => .error "KeyError"
      | some aid =>
        match encodeVals ((List.lookup attr values).getD []) vals with
        | .error e => .error e
        | .ok codes =>
          spanValLoop attrs values nSpans
            (span_val ++ [J.num aid, J.str (base64str codes)]) rest
    else
      .error "Must be the same amount of spans as attribute values."

/-- The `for span_data in cell_data` loop of `write` (attributes.py lines
262-304): for each group, run the dictionary loop, then build `span_val` and
append the encoded spans and `span_val` to `cell`. -/
def procGroups (attrs : List (String × Nat))
    (values : List (String × List (String × Nat)))
    (new_attrs : List String) (new_values : List (String × List String))
    (cell : List J) :
    List AttributeGroup →
    Except String (List (String × Nat) × List (String × List (String × Nat)) ×
      List String × List (String × List String) × List J)
  | [] => .ok (attrs, values, new_attrs, new_values, cell)
  | g :: rest =>
    match procAttrVals attrs values new_attrs new_values g.attr_vals with
    | .error e => .error e
    | .ok r1 =>
      match spanValLoop r1.1 r1.2.1 g.spans.length
        (match g.name with
          | some nm => [J.str nm]
          | Option.none => []) g.attr_vals with
      | .error e => .error e
      | .ok span_val =>
        procGroups r1.1 r1.2.1 r1.2.2.1 r1.2.2.2
          (cell ++ [J.str (base64str (contig_spans g.spans)), J.arr span_val]) rest

/-- `write(cell_data)` (attributes.py lines 254-312): processes the groups,
then emits the `"@"` batch, the `"$"` batches and the cell record. Returns
the updated dictionaries and the emitted records, or the raised error. -/
def writeCell (st : WriterState) (cell_data : List AttributeGroup) :
    Except String (WriterState × List J) :=
  match procGroups st.attrs st.values [] [] [] cell_data with
  | .error e => .error e
  | .ok r =>
    let out1 :=
      if r.2.2.1 ≠ [] then [J.arr (J.str "@" :: r.2.2.1.map J.str)] else []
    let out2 :=
      r.2.2.2.1.map fun p => J.arr (J.str "$" :: J.str p.1 :: p.2.map J.str)
    .ok (⟨r.1, r.2.1⟩, out1 ++ out2 ++ [J.arr r.2.2.2.2])

/-- `writer(output, n_rows, n_cols)` (attributes.py lines 210-316): fresh
dictionaries plus the header record emitted at construction time. -/
def writerInit (n_rows n_cols : Nat) : WriterState × List J :=
  (⟨[], []⟩,
    [J.obj [("version", J.str "0.3"), ("rows", J.num n_rows), ("cols", J.num n_cols)]])

/-! ## JSON-lines rendering (`write_jsonl`, attributes.py lines 250-252)

`json.dump(obj, output, separators=(",", ":"))` in compact form. The values
the writer emits contain no characters that JSON escapes, so escaping only
needs to cover the quote and backslash to be faithful on this data. -/

def escapeChar (c : Char) : List Char :=
  if c = '"' ∨ c = '\\' then ['\\', c] else [c]

def escape (s : String) : String :=
  ⟨(s.data.map escapeChar).flatten⟩

mutual

def render : J → String
  | .str s => "\"" ++ escape s ++ "\""
  | .num n => toString n
  | .arr l => "[" ++ renderList l ++ "]"
  | .obj l => "\x7b" ++ renderObj l ++ "\x7d"

def renderList : List J → String
  | [] => ""
  | [x] => render x
  | x :: xs => render x ++ "," ++ renderList xs

def renderObj : List (String × J) → String
  | [] => ""
  | [(k, v)] => "\"" ++ escape k ++ "\":" ++ render v
  | (k, v) :: xs => "\"" ++ escape k ++ "\":" ++ render v ++ "," ++ renderObj xs

end

/-! ## `adjust_span_offsets_from_char_to_byte` (attributes.py lines 624-657) -/

/-- The loop building `byte_offsets`: an association list from character
offset to cumulative UTF-8 byte offset, with the final one-past-the-end
entry appended after the loop. -/
def byteOffsetsAux : List Char → Nat → Nat → List (Nat × Nat)
  | [], char_offset, byte_offset => [(char_offset, byte_offset)]
  | ch :: rest, char_offset, byte_offset =>
    (char_offset, byte_offset) :: byteOffsetsAux rest (char_offset + 1) (byte_offset + ch.utf8Size)

/-- `byte_offsets` for a cell string. -/
def byte_offsets (cell : List Char) : List (Nat × Nat) :=
  byteOffsetsAux cell 0 0

/-- Python dict lookup `byte_offsets[k]` where the span endpoint `k` is an
arbitrary integer: `KeyError` when absent. -/
def lookupByteOffset (bo : List (Nat × Nat)) (k : Int) : Except String Nat :=
  match bo.find? (fun p => (p.1 : Int) == k) with
  | some p => .ok p.2
  | Option.none => .error "KeyError"

/-- Effectful `map` over a list, failing on the first error, as a Python
`for` loop does. -/
def mapE {α β : Type} (f : α → Except String β) : List α → Except String (List β)
  | [] => .ok []
  | x :: xs =>
    match f x with
    | .error e => .error e
    | .ok y =>
      match mapE f xs with
      | .error e => .error e
      | .ok ys => .ok (y :: ys)

/-- The inner span rewrite `spans[i] = (byte_offsets[start], byte_offsets[end])`
for one group. -/
def adjustSpan (bo : List (Nat × Nat)) (sp : Int × Int) : Except String (Int × Int) :=
  match lookupByteOffset bo sp.1 with
  | .error e => .error e
  | .ok bs =>
    match lookupByteOffset bo sp.2 with
    | .error e => .error e
    | .ok be => .ok (Int.ofNat bs, Int.ofNat be)

def adjustGroup (bo : List (Nat × Nat)) (g : AttributeGroup) :
    Except String AttributeGroup :=
  match mapE (adjustSpan bo) g.spans with
  | .error e => .error e
  | .ok spans => .ok { g with spans := spans }

/-- `adjust_span_offsets_from_char_to_byte(cell, enriched_cell)`. -/
def adjust_span_offsets_from_char_to_byte (cell : List Char)
    (enriched_cell : List AttributeGroup) : Except String (List AttributeGroup) :=
  mapE (adjustGroup (byte_offsets cell)) enriched_cell

/-! ## Spec-side definitions

The writer is encode-only; the decoding contract below is stated by the
spec for round-trip testing, and the run/digit characterizations restate
the spec's description of the encoder, to be compared with the source
functions above. -/

/-- Value of one numeral character in the base-64 alphabet ASCII 48..111. -/
def digitVal (c : Char) : Nat := c.toNat - 48

/-- Decode one code in the base-64 numeral alphabet, most-significant digit
first. -/
def decDigits (l : List Char) : Nat :=
  l.foldl (fun a c => a * 64 + digitVal c) 0

/-- Modelled from the spec: a token whose first character lies in ASCII
35..42 has its remainder "split into fixed-width chunks of size
`ascii(prefix) - 34`". -/
def chunksOf (k : Nat) (l : List Char) : List (List Char) :=
  if l = [] ∨ k = 0 then []
  else l.take k :: chunksOf k (l.drop k)
termination_by l.length
decreasing_by
  rename_i h
  simp only [not_or] at h
  have : 0 < l.length := List.length_pos.mpr h.1
  have : l.length - k < l.length := by omega
  simpa using this

/-- Modelled from the spec: decode one comma-separated token — a token
starting with a character in the compression-prefix range ASCII 35..42 is
split into fixed-width chunks of size `ascii(prefix) - 34`, each chunk a
code; any other token is a single code. -/
def decToken (t : List Char) : List Nat :=
  match t with
  | [] => [0]
  | c :: rest =>
    if 35 ≤ c.toNat ∧ c.toNat ≤ 42 then
      (chunksOf (c.toNat - 34) rest).map decDigits
    else
      [decDigits t]

/-- Split a nonempty character list at commas (`str.split(",")`). -/
def splitCommaNE : List Char → List (List Char)
  | [] => [[]]
  | c :: rest =>
    if c = ',' then [] :: splitCommaNE rest
    else
      match splitCommaNE rest with
      | [] => [[c]]
      | t :: ts => (c :: t) :: ts

/-- Modelled from the spec: split the encoded string on `','`; the empty
string (the encoding of the empty sequence) decodes to no tokens. -/
def splitComma (l : List Char) : List (List Char) :=
  if l = [] then [] else splitCommaNE l

/-- Modelled from the spec: the decoder for `base64str` output — split on
`','` and decode every token. The source repository is encode-only; this
definition follows the spec's decoding contract. -/
def decode_sequence (s : String) : List Nat :=
  ((splitComma s.data).map decToken).flatten

/-- Spec-side digit encoder: the base-64 digits of `n` (via `Nat.digits`,
least-significant first), mapped into the alphabet ASCII 48..111 and
reversed to most-significant-digit-first order. -/
def specDigits (n : Nat) : List Char :=
  ((Nat.digits 64 n).map NUMERALS).reverse

/-- Spec-side grouping: maximal runs of consecutive equal-length codes. -/
def groupRuns : List (List Char) → List (List (List Char))
  | [] => []
  | c :: cs =>
    (c :: cs.takeWhile (fun s => s.length == c.length)) ::
      groupRuns (cs.dropWhile (fun s => s.length == c.length))
termination_by l => l.length
decreasing_by
  have := (List.dropWhile_sublist (l := ts) (p := fun s => s.length == t.length)).length_le
  simpa using Nat.lt_succ_of_le this

/-- Spec-side flush of one maximal run: a run of at least two codes whose
common length is at most `COMPRESSED_LEN` becomes one token
`COMPRESSED (len - 1) :: concatenation`; otherwise each code is its own
token. -/
def flushGroup (g : List (List Char)) : List (List Char) :=
  if g.length = 1 then [g.headD []]
  else if 1 < g.length then
    if (g.headD []).length - 1 < COMPRESSED_LEN then
      [COMPRESSED ((g.headD []).length - 1) :: g.flatten]
    else g
  else []

/-- Spec-side token list: flush every maximal equal-length run. -/
def tokensOfCodes (cs : List (List Char)) : List (List Char) :=
  ((groupRuns cs).map flushGroup).flatten

/-- Cumulative UTF-8 byte length of a character list. -/
def utf8Len (l : List Char) : Nat := (l.map Char.utf8Size).sum

/-! ## Digit encoder lemmas -/

theorem NUMERALS_toNat : ∀ d, d < 64 → (NUMERALS d).toNat = 48 + d := by decide

theorem COMPRESSED_toNat : ∀ i, i < 8 → (COMPRESSED i).toNat = 35 + i := by decide

/-- The `base64` while loop produces the least-significant-first base-64
digits of a non-negative input, appended to the accumulator. -/
theorem base64loop_eq (n : Nat) : ∀ ret : List Char,
    base64loop (n : Int) ret = ret ++ (Nat.digits 64 n).map NUMERALS := by
  induction n using Nat.strong_induction_on with
  | _ n ih =>
    intro ret
    rw [base64loop]
    by_cases h : 0 < n
    · have hpos : (0 : Int) < (n : Int) := by exact_mod_cast h
      rw [if_pos hpos]
      have hdiv : ((n : Int) / 64) = ((n / 64 : Nat) : Int) := by
        rw [Int.natCast_div]; norm_num
      have hmod : ((n : Int) % 64) = ((n % 64 : Nat) : Int) := by
        rw [Int.natCast_mod]; norm_num
      rw [hdiv, hmod, Int.toNat_natCast,
        ih (n / 64) (Nat.div_lt_self h (by norm_num)),
        Nat.digits_def' (by norm_num : (1:Nat) < 64) h]
      simp
    · have h0 : n = 0 := by omega
      subst h0
      simp [base64loop]

/-- `base64` on a non-negative value: `"0"` for zero, the
most-significant-first digit string otherwise. -/
theorem base64_nat (n : Nat) :
    base64 (n : Int) = if n = 0 then [NUMERALS 0] else specDigits n := by
  by_cases h : n = 0
  · subst h; simp [base64]
  · have : (n : Int) ≠ 0 := by exact_mod_cast h
    rw [base64, if_neg this, if_neg h, base64loop_eq]
    simp [specDigits]

theorem specDigits_ne_nil {n : Nat} (h : n ≠ 0) : specDigits n ≠ [] := by
  simp [specDigits, Nat.digits_ne_nil_iff_ne_zero, h]

theorem base64_nat_ne_nil (n : Nat) : base64 (n : Int) ≠ [] := by
  rw [base64_nat]
  by_cases h : n = 0
  · simp [h]
  · simp only [if_neg h]
    exact specDigits_ne_nil h

/-- Every character of an encoded non-negative value lies in the numeral
alphabet range ASCII 48..111. -/
theorem base64_nat_chars (n : Nat) :
    ∀ c ∈ base64 (n : Int), 48 ≤ c.toNat ∧ c.toNat ≤ 111 := by
  intro c hc
  rw [base64_nat] at hc
  by_cases h : n = 0
  · rw [if_pos h] at hc
    simp only [List.mem_singleton] at hc
    subst hc
    decide
  · rw [if_neg h] at hc
    simp only [specDigits, List.mem_reverse, List.mem_map] at hc
    obtain ⟨d, hd, rfl⟩ := hc
    have hlt : d < 64 := Nat.digits_lt_base (by norm_num) hd
    rw [NUMERALS_toNat d hlt]
    omega

theorem digitVal_NUMERALS {d : Nat} (h : d < 64) : digitVal (NUMERALS d) = d := by
  rw [digitVal, NUMERALS_toNat d h]
  omega

/-- Folding the decode step over a most-significant-first digit string. -/
theorem foldl_decode_digits (ds : List Nat) (hds : ∀ d ∈ ds, d < 64) :
    ∀ a : Nat,
      List.foldl (fun a c => a * 64 + digitVal c) a ((ds.map NUMERALS).reverse) =
        a * 64 ^ ds.length + Nat.ofDigits 64 ds := by
  induction ds with
  | nil => intro a; simp
  | cons d rest ih =>
    intro a
    have hd : d < 64 := hds d (by simp)
    have hrest : ∀ x ∈ rest, x < 64 := fun x hx => hds x (by simp [hx])
    simp only [List.map_cons, List.reverse_cons, List.foldl_append,
      List.foldl_cons, List.foldl_nil, ih hrest a, Nat.ofDigits_cons,
      digitVal_NUMERALS hd, List.length_cons]
    ring

/-- Digit round-trip: decoding an encoded non-negative value recovers it. -/
theorem decDigits_base64 (n : Nat) : decDigits (base64 (n : Int)) = n := by
  rw [base64_nat]
  by_cases h : n = 0
  · subst h; decide
  · rw [if_neg h, decDigits, specDigits,
      foldl_decode_digits _ (fun d hd => Nat.digits_lt_base (by norm_num) hd) 0,
      Nat.ofDigits_digits]
    simp

/-! ## Equivalence of `base64str` with the maximal-run description -/

theorem flush_buf_eq (ret buf : List (List Char)) :
    flush_buf ret buf = ret ++ flushGroup buf := by
  simp only [flush_buf, flushGroup]
  by_cases h1 : buf.length = 1
  · simp [h1]
  · by_cases h2 : 1 < buf.length
    · rw [if_neg h1, if_neg h1, if_pos h2, if_pos h2]
      split_ifs with h3
      · rfl
      · rfl
    · simp [h1, h2]

theorem flatten_groupRuns : ∀ cs, (groupRuns cs).flatten = cs := by
  intro cs
  induction cs using groupRuns.induct with
  | case1 => simp [groupRuns]
  | case2 c cs ih =>
    rw [groupRuns]
    simp only [List.flatten_cons, ih]
    simp [List.takeWhile_append_dropWhile]

/-- Every group delivered by `groupRuns` is nonempty, consists of codes of
one common length, and draws its codes from the input list. -/
theorem groupRuns_facts : ∀ cs : List (List Char), ∀ g ∈ groupRuns cs,
    g ≠ [] ∧ (∀ s ∈ g, s.length = (g.headD []).length) ∧ ∀ s ∈ g, s ∈ cs := by
  intro cs
  induction cs using groupRuns.induct with
  | case1 => simp [groupRuns]
  | case2 c cs ih =>
    intro g hg
    rw [groupRuns] at hg
    rcases List.mem_cons.mp hg with hg | hg
    · subst hg
      refine ⟨by simp, ?_, ?_⟩
      · intro s hs
        rcases List.mem_cons.mp hs with rfl | hs
        · simp
        · have := List.mem_takeWhile_imp hs
          simpa using this
      · intro s hs
        rcases List.mem_cons.mp hs with rfl | hs
        · simp
        · exact List.mem_cons_of_mem _ ((List.takeWhile_sublist _).mem hs)
    · obtain ⟨h1, h2, h3⟩ := ih g hg
      exact ⟨h1, h2, fun s hs =>
        List.mem_cons_of_mem _ ((List.dropWhile_sublist _).mem (h3 s hs))⟩

theorem tokensOfCodes_nil : tokensOfCodes [] = [] := by
  simp [tokensOfCodes, groupRuns]

theorem tokensOfCodes_cons (c : List Char) (cs : List (List Char)) :
    tokensOfCodes (c :: cs) =
      flushGroup (c :: cs.takeWhile (fun s => s.length == c.length)) ++
        tokensOfCodes (cs.dropWhile (fun s => s.length == c.length)) := by
  rw [tokensOfCodes, groupRuns]
  simp [tokensOfCodes]

/-- Running the `base64str` loop with a nonempty equal-length buffer is the
same as flushing the (extended) current run and then encoding the rest. -/
theorem base64strAux_run (xs : List Int) : ∀ ret buf : List (List Char), buf ≠ [] →
    base64strAux ret buf xs =
      ret ++
        flushGroup (buf ++ (xs.map base64).takeWhile
          (fun s => s.length == (buf.headD []).length)) ++
        tokensOfCodes ((xs.map base64).dropWhile
          (fun s => s.length == (buf.headD []).length)) := by
  induction xs with
  | nil =>
    intro ret buf hne
    simp [base64strAux, flush_buf_eq, tokensOfCodes_nil]
  | cons x rest ih =>
    intro ret buf hne
    rw [base64strAux, push_buf]
    by_cases h : (base64 x).length = (buf.headD []).length
    · rw [if_pos (Or.inr h)]
      have hhead : ((buf ++ [base64 x]).headD []) = buf.headD [] := by
        cases buf with
        | nil => exact absurd rfl hne
        | cons a as => simp
      rw [ih ret (buf ++ [base64 x]) (by simp), hhead]
      have hb : ((base64 x).length == (buf.headD []).length) = true := by
        simpa using h
      simp only [List.map_cons, List.takeWhile_cons, List.dropWhile_cons, hb]
      simp
    · have hcond : ¬(buf.length = 0 ∨ (base64 x).length = (buf.headD []).length) := by
        push_neg
        exact ⟨fun h0 => hne (List.length_eq_zero.mp h0), h⟩
      rw [if_neg hcond]
      rw [ih (flush_buf ret buf) [base64 x] (by simp), flush_buf_eq]
      have h' : ¬(base64 x).length = (buf.head?.getD []).length := by
        simpa using h
      have ht : List.takeWhile (fun s => s.length == (buf.headD []).length)
          (base64 x :: List.map base64 rest) = [] := by
        rw [List.takeWhile_cons]
        simp [h']
      have hd : List.dropWhile (fun s => s.length == (buf.headD []).length)
          (base64 x :: List.map base64 rest) = base64 x :: List.map base64 rest := by
        rw [List.dropWhile_cons]
        simp [h']
      simp only [List.map_cons, ht, hd]
      rw [tokensOfCodes_cons]
      simp [List.append_assoc]

/-- The `base64str` token list is the flush of the maximal equal-length runs
of the encoded codes. -/
theorem base64strTokens_eq (l : List Int) :
    base64strTokens l = tokensOfCodes (l.map base64) := by
  rw [base64strTokens]
  cases l with
  | nil => simp [base64strAux, flush_buf, tokensOfCodes_nil]
  | cons x rest =>
    rw [base64strAux]
    have hpb : push_buf [] [] (base64 x) = ([], [base64 x]) := by
      rw [push_buf]
      simp
    rw [hpb]
    rw [base64strAux_run rest [] [base64 x] (by simp)]
    rw [List.map_cons, tokensOfCodes_cons]
    simp

/-! ## Decoding lemmas -/

theorem chunksOf_flatten (k : Nat) (hk : k ≠ 0) :
    ∀ cs : List (List Char), (∀ s ∈ cs, s.length = k) → chunksOf k cs.flatten = cs := by
  intro cs
  induction cs with
  | nil =>
    intro _
    rw [chunksOf]
    simp
  | cons c rest ih =>
    intro hlen
    have hc : c.length = k := hlen c (by simp)
    have hcne : c ≠ [] := by
      intro hc0
      rw [hc0] at hc
      exact hk hc.symm
    rw [List.flatten_cons, chunksOf,
      if_neg (by simp [List.append_ne_nil_of_left_ne_nil hcne, hk]),
      ← hc, List.take_left, List.drop_left, hc,
      ih (fun s hs => hlen s (by simp [hs]))]

/-- A token whose first character is a numeral (ASCII ≥ 48) decodes as one
single code. -/
theorem decToken_code (c : Char) (rest : List Char) (hc : 48 ≤ c.toNat) :
    decToken (c :: rest) = [decDigits (c :: rest)] := by
  have hn : ¬(35 ≤ c.toNat ∧ c.toNat ≤ 42) := by omega
  rw [decToken, if_neg hn]

/-- Helper: decoding token-by-token when every element is a single code. -/
theorem flatten_map_decToken_singles (f : List Char → Nat) :
    ∀ l : List (List Char), (∀ s ∈ l, decToken s = [f s]) →
      (l.map decToken).flatten = l.map f := by
  intro l
  induction l with
  | nil => intro _; simp
  | cons s rest ih =>
    intro h
    simp only [List.map_cons, List.flatten_cons, h s (by simp),
      ih (fun s hs => h s (by simp [hs]))]
    simp

/-- Decoding the token(s) a flushed run produces recovers the run's codes. -/
theorem decTokens_flushGroup (g : List (List Char))
    (hne : ∀ s ∈ g, s ≠ [])
    (hhead : ∀ s ∈ g, ∀ c ∈ s, 48 ≤ c.toNat ∧ c.toNat ≤ 111)
    (hlen : ∀ s ∈ g, s.length = (g.headD []).length) :
    ((flushGroup g).map decToken).flatten = g.map decDigits := by
  have hsingle : ∀ s ∈ g, decToken s = [decDigits s] := by
    intro s hs
    match s, hne s hs with
    | c :: r, _ =>
      exact decToken_code c r (hhead _ hs c (by simp)).1
  rw [flushGroup]
  by_cases h1 : g.length = 1
  · rw [if_pos h1]
    obtain ⟨x, rfl⟩ := List.length_eq_one.mp h1
    simp [hsingle x (by simp)]
  · rw [if_neg h1]
    by_cases h2 : 1 < g.length
    · rw [if_pos h2]
      by_cases h3 : (g.headD []).length - 1 < COMPRESSED_LEN
      · rw [if_pos h3]
        match g, h2 with
        | x :: g', _ =>
          have hL1 : 1 ≤ x.length := by
            have := hne x (by simp)
            cases x with
            | nil => exact absurd rfl this
            | cons a as => simp
          have hLlt : x.length - 1 < 8 := by simpa [COMPRESSED_LEN] using h3
          have htok : decToken (COMPRESSED (x.length - 1) :: (x :: g').flatten) =
              (chunksOf x.length (x :: g').flatten).map decDigits := by
            rw [decToken]
            rw [COMPRESSED_toNat _ hLlt,
              if_pos (by omega)]
            congr 1
            congr 1
            omega
          simp only [List.headD_cons] at htok ⊢
          rw [List.map_cons, List.map_nil, List.flatten_cons, List.flatten_nil,
            List.append_nil, htok,
            chunksOf_flatten x.length (by omega) _ (by simpa using hlen)]
      · rw [if_neg h3]
        exact flatten_map_decToken_singles decDigits g hsingle
    · rw [if_neg h2]
      have : g = [] := by
        cases g with
        | nil => rfl
        | cons a as =>
          exfalso
          simp only [List.length_cons] at h1 h2
          omega
      subst this
      simp

/-! ## Splitting on commas -/

theorem splitCommaNE_no_comma : ∀ t : List Char, ',' ∉ t → splitCommaNE t = [t] := by
  intro t
  induction t with
  | nil => intro _; rfl
  | cons c rest ih =>
    intro h
    rw [splitCommaNE]
    have hc : ¬(c = ',') := fun hc => h (by simp [hc])
    rw [if_neg hc, ih (fun hm => h (by simp [hm]))]

theorem splitCommaNE_append (r : List Char) : ∀ t : List Char, ',' ∉ t →
    splitCommaNE (t ++ ',' :: r) = t :: splitCommaNE r := by
  intro t
  induction t with
  | nil =>
    intro _
    rw [List.nil_append, splitCommaNE, if_pos rfl]
  | cons c rest ih =>
    intro h
    have hc : ¬(c = ',') := fun hc => h (by simp [hc])
    rw [List.cons_append, splitCommaNE, if_neg hc,
      ih (fun hm => h (by simp [hm]))]

theorem intercalate_comma_cons (t : List Char) (ts : List (List Char)) (h : ts ≠ []) :
    List.intercalate [','] (t :: ts) = t ++ ',' :: List.intercalate [','] ts := by
  cases ts with
  | nil => exact absurd rfl h
  | cons t2 rest => simp [List.intercalate, List.intersperse]

theorem intercalate_comma_ne_nil : ∀ ts : List (List Char), ts ≠ [] →
    (∀ t ∈ ts, t ≠ []) → List.intercalate [','] ts ≠ [] := by
  intro ts hne h
  cases ts with
  | nil => exact absurd rfl hne
  | cons t rest =>
    cases rest with
    | nil =>
      simpa [List.intercalate] using h t (by simp)
    | cons t2 r2 =>
      rw [intercalate_comma_cons t _ (by simp)]
      exact List.append_ne_nil_of_left_ne_nil (h t (by simp)) _

/-- Splitting the comma-joined tokens recovers the token list, provided
every token is nonempty and comma-free. -/
theorem splitComma_intercalate : ∀ ts : List (List Char),
    (∀ t ∈ ts, t ≠ [] ∧ ',' ∉ t) →
    splitComma (List.intercalate [','] ts) = ts := by
  intro ts
  induction ts with
  | nil => intro _; simp [splitComma, List.intercalate]
  | cons t rest ih =>
    intro h
    cases rest with
    | nil =>
      have ht := h t (by simp)
      have h1 : List.intercalate [','] [t] = t := by
        simp [List.intercalate]
      rw [h1, splitComma, if_neg ht.1, splitCommaNE_no_comma t ht.2]
    | cons t2 r2 =>
      rw [intercalate_comma_cons t _ (by simp)]
      rw [splitComma,
        if_neg (List.append_ne_nil_of_left_ne_nil (h t (by simp)).1 _),
        splitCommaNE_append _ t (h t (by simp)).2]
      have hrest := ih (fun s hs => h s (by simp [hs]))
      rw [splitComma] at hrest
      rw [if_neg (intercalate_comma_ne_nil _ (by simp)
        (fun s hs => (h s (by simp [hs])).1))] at hrest
      rw [hrest]

/-- Tokens produced from nonempty numeral-alphabet codes are nonempty and
comma-free. -/
theorem tokensOfCodes_facts (cs : List (List Char))
    (hcs : ∀ s ∈ cs, s ≠ [] ∧ ∀ c ∈ s, 48 ≤ c.toNat ∧ c.toNat ≤ 111) :
    ∀ t ∈ tokensOfCodes cs, t ≠ [] ∧ ',' ∉ t := by
  intro t ht
  rw [tokensOfCodes, List.mem_flatten] at ht
  obtain ⟨fl, hfl, htfl⟩ := ht
  rw [List.mem_map] at hfl
  obtain ⟨g, hg, rfl⟩ := hfl
  obtain ⟨hgne, hglen, hgmem⟩ := groupRuns_facts cs g hg
  have hcode : ∀ s ∈ g, s ≠ [] ∧ ∀ c ∈ s, 48 ≤ c.toNat ∧ c.toNat ≤ 111 :=
    fun s hs => hcs s (hgmem s hs)
  have hnc : ∀ s ∈ g, ',' ∉ s := by
    intro s hs hmem
    have hb := (hcode s hs).2 ',' hmem
    have h44 : (',').toNat = 44 := rfl
    omega
  rw [flushGroup] at htfl
  by_cases h1 : g.length = 1
  · rw [if_pos h1] at htfl
    obtain ⟨x, rfl⟩ := List.length_eq_one.mp h1
    simp only [List.headD_cons, List.mem_singleton] at htfl
    subst htfl
    exact ⟨(hcode t (by simp)).1, hnc t (by simp)⟩
  · rw [if_neg h1] at htfl
    by_cases h2 : 1 < g.length
    · rw [if_pos h2] at htfl
      by_cases h3 : (g.headD []).length - 1 < COMPRESSED_LEN
      · rw [if_pos h3] at htfl
        simp only [List.mem_singleton] at htfl
        subst htfl
        refine ⟨by simp, ?_⟩
        intro hmem
        rcases List.mem_cons.mp hmem with hhd | htl
        · have hlt : (g.headD []).length - 1 < 8 := by
            simpa [COMPRESSED_LEN] using h3
          have := COMPRESSED_toNat _ hlt
          rw [← hhd] at this
          have h44 : (',').toNat = 44 := rfl
          omega
        · rw [List.mem_flatten] at htl
          obtain ⟨s, hsg, hcs'⟩ := htl
          exact hnc s hsg hcs'
      · rw [if_neg h3] at htfl
        exact ⟨(hcode t htfl).1, hnc t htfl⟩
    · rw [if_neg h2] at htfl
      simp at htfl

/-- The encoded codes of a list of non-negative integers are nonempty
numeral-alphabet strings. -/
theorem base64_ofNat_facts (xs : List Nat) :
    ∀ s ∈ (xs.map Int.ofNat).map base64,
      s ≠ [] ∧ ∀ c ∈ s, 48 ≤ c.toNat ∧ c.toNat ≤ 111 := by
  intro s hs
  simp only [List.map_map, List.mem_map, Function.comp] at hs
  obtain ⟨n, _, rfl⟩ := hs
  exact ⟨base64_nat_ne_nil n, base64_nat_chars n⟩

/-- Decoding the token stream of a code list recovers the decoded codes. -/
theorem decTokens_tokensOfCodes : ∀ cs : List (List Char),
    (∀ s ∈ cs, s ≠ [] ∧ ∀ c ∈ s, 48 ≤ c.toNat ∧ c.toNat ≤ 111) →
    ((tokensOfCodes cs).map decToken).flatten = cs.map decDigits := by
  intro cs
  induction cs using groupRuns.induct with
  | case1 => intro _; simp [tokensOfCodes_nil]
  | case2 c cs ih =>
    intro hcs
    rw [tokensOfCodes_cons, List.map_append, List.flatten_append]
    have hsub1 : ∀ s ∈ c :: List.takeWhile (fun s => s.length == c.length) cs,
        s ∈ c :: cs := by
      intro s hs
      rcases List.mem_cons.mp hs with rfl | hs
      · simp
      · exact List.mem_cons_of_mem _ ((List.takeWhile_sublist _).mem hs)
    have hg := decTokens_flushGroup (c :: List.takeWhile (fun s => s.length == c.length) cs)
      (fun s hs => (hcs s (hsub1 s hs)).1)
      (fun s hs => (hcs s (hsub1 s hs)).2)
      (by
        intro s hs
        rcases List.mem_cons.mp hs with rfl | hs
        · simp
        · have := List.mem_takeWhile_imp hs
          simpa using this)
    rw [hg,
      ih (fun s hs => hcs s (List.mem_cons_of_mem _ ((List.dropWhile_sublist _).mem hs)))]
    rw [← List.map_append]
    congr 1
    rw [List.cons_append, List.takeWhile_append_dropWhile]

/-- Round-trip of the sequence encoder against the spec's decoding
contract. -/
theorem decode_sequence_base64str (xs : List Nat) :
    decode_sequence (base64str (xs.map Int.ofNat)) = xs := by
  show ((splitComma (List.intercalate [','] (base64strTokens (xs.map Int.ofNat)))).map
    decToken).flatten = xs
  rw [base64strTokens_eq]
  have hcodes := base64_ofNat_facts xs
  rw [splitComma_intercalate _ (tokensOfCodes_facts _ hcodes)]
  rw [decTokens_tokensOfCodes _ hcodes]
  rw [List.map_map, List.map_map]
  have hmap : ∀ n ∈ xs, ((decDigits ∘ base64) ∘ Int.ofNat) n = id n := by
    intro n _
    exact decDigits_base64 n
  rw [List.map_congr_left hmap, List.map_id]

/-! ## Concrete digit evaluations -/

theorem base64_eval_0 : base64 (0 : Int) = ['0'] := by
  rw [show (0 : Int) = ((0 : Nat) : Int) by norm_num, base64_nat]
  decide

theorem base64_eval_1 : base64 (1 : Int) = ['1'] := by
  rw [show (1 : Int) = ((1 : Nat) : Int) by norm_num, base64_nat]
  simp [specDigits]
  decide

theorem base64_eval_2 : base64 (2 : Int) = ['2'] := by
  rw [show (2 : Int) = ((2 : Nat) : Int) by norm_num, base64_nat]
  simp [specDigits]
  decide

theorem base64_eval_55 : base64 (55 : Int) = ['g'] := by
  rw [show (55 : Int) = ((55 : Nat) : Int) by norm_num, base64_nat]
  simp [specDigits]
  decide

theorem base64_eval_83 : base64 (83 : Int) = ['1', 'C'] := by
  rw [show (83 : Int) = ((83 : Nat) : Int) by norm_num, base64_nat]
  simp [specDigits]
  decide

theorem base64_eval_2291947 : base64 (2291947 : Int) = ['8', '_', 'S', '['] := by
  rw [show (2291947 : Int) = ((2291947 : Nat) : Int) by norm_num, base64_nat]
  simp [specDigits]
  decide

theorem base64_eval_neg (n : Int) (hn : n < 0) : base64 n = [] := by
  have h0 : ¬(n = 0) := by omega
  have h1 : ¬(0 < n) := by omega
  rw [base64, if_neg h0, base64loop, if_neg h1, List.reverse_nil]

/-! ## Claim theorems for the numeric encoders -/

/-- C1: for every finite sequence of non-negative integers `xs`, decoding
the string produced by `base64str` by the spec's decoding contract — split
on `','`, split every token whose first character lies in ASCII 35..42 into
fixed-width chunks of size `ascii(prefix) - 34`, treat every other token as
a single value, and decode each code in the base-64 numeral alphabet —
yields exactly `xs`; and `base64str [] = ""`. -/
theorem c1_sequence_roundtrip :
    (∀ xs : List Nat, decode_sequence (base64str (xs.map Int.ofNat)) = xs) ∧
      base64str [] = "" :=
  ⟨decode_sequence_base64str, rfl⟩

/-- C4: `base64` maps 0 to `"0"` and every positive integer to its
most-significant-digit-first base-64 representation in the alphabet
ASCII 48..111 (`specDigits`); `base64str` flushes every maximal run of
consecutive equal-length codes — a run of at least two codes of length at
most `COMPRESSED_LEN = 8` becomes the single token
`COMPRESSED (len - 1) :: concatenation` (prefixes ASCII 35..42), all other
runs contribute their codes as separate tokens (`tokensOfCodes`) — and
joins the tokens with `','`; in particular
`base64str [83,55,83,2291947] = "1C,g,1C,8_S["` and
`base64str [83,83,83] = "$1C1C1C"`. -/
theorem c4_encoder_characterization :
    (base64 (0 : Int) = ['0'] ∧
      ∀ n : Nat, 0 < n → base64 (n : Int) = specDigits n) ∧
    (∀ l : List Int,
      base64str l = ⟨List.intercalate [','] (tokensOfCodes (l.map base64))⟩) ∧
    base64str [83, 55, 83, 2291947] = "1C,g,1C,8_S[" ∧
    base64str [83, 83, 83] = "$1C1C1C" := by
  refine ⟨⟨base64_eval_0, ?_⟩, ?_, ?_, ?_⟩
  · intro n h
    have hn : ¬(n = 0) := by omega
    rw [base64_nat, if_neg hn]
  · intro l
    rw [base64str, base64strTokens_eq]
  · rw [base64str, base64strTokens_eq]
    simp only [List.map_cons, List.map_nil, base64_eval_83, base64_eval_55,
      base64_eval_2291947]
    simp [tokensOfCodes_cons, tokensOfCodes_nil, flushGroup]
    decide
  · rw [base64str, base64strTokens_eq]
    simp only [List.map_cons, List.map_nil, base64_eval_83]
    simp [tokensOfCodes_cons, tokensOfCodes_nil, flushGroup, COMPRESSED_LEN, COMPRESSED]
    decide

/-! ## Span encoder lemmas -/

theorem contigSpansAux_length (spans : List (Int × Int)) : ∀ off : Int,
    (contigSpansAux spans off).length = 2 * spans.length := by
  induction spans with
  | nil => intro off; rfl
  | cons sp rest ih =>
    intro off
    cases sp with
    | mk a b =>
      simp only [contigSpansAux, List.length_cons, ih b]
      omega

theorem contigSpansAux_eq (spans : List (Int × Int)) : ∀ off : Int,
    contigSpansAux spans off =
      (spans.zip (off :: spans.map Prod.snd)).flatMap
        (fun p => [p.1.1 - p.2, p.1.2 - p.1.1]) := by
  induction spans with
  | nil => intro off; rfl
  | cons sp rest ih =>
    intro off
    cases sp with
    | mk a b =>
      simp only [contigSpansAux, List.map_cons, List.zip_cons_cons,
        List.flatMap_cons, ih b]
      rfl

/-- C7: `contig_spans` returns a list of length exactly `2 * len(spans)`
in which, for each span `(start, end)` in order, the element
`start - previous_end` (with `previous_end = 0` for the first span) is
followed by `end - start`; in particular
`contig_spans [(0,1),(2,3),(4,5)] = [0,1,1,1,1,1]`. -/
theorem c7_contig_spans :
    (∀ spans : List (Int × Int), (contig_spans spans).length = 2 * spans.length) ∧
    (∀ spans : List (Int × Int), contig_spans spans =
      (spans.zip ((0 : Int) :: spans.map Prod.snd)).flatMap
        (fun p => [p.1.1 - p.2, p.1.2 - p.1.1])) ∧
    contig_spans [(0, 1), (2, 3), (4, 5)] = [0, 1, 1, 1, 1, 1] :=
  ⟨fun spans => contigSpansAux_length spans 0,
   fun spans => contigSpansAux_eq spans 0,
   by decide⟩

/-- C10 (implicit behavior): for every negative integer, `base64` returns
the empty string rather than raising — both the zero branch and the digit
loop are skipped — so out-of-order spans, whose `contig_spans` encoding
contains negative gaps, yield silently shortened codes: the two-span cell
`[(2,3),(0,1)]` encodes to `"#21,,1"`, whose middle token is the empty
code of the negative gap `-3`. -/
theorem c10_negative_base64_empty :
    (∀ n : Int, n < 0 → base64 n = []) ∧
    contig_spans [(2, 3), (0, 1)] = [2, 1, -3, 1] ∧
    base64str [2, 1, -3, 1] = "#21,,1" := by
  refine ⟨fun n hn => base64_eval_neg n hn, by decide, ?_⟩
  rw [base64str, base64strTokens_eq]
  simp only [List.map_cons, List.map_nil, base64_eval_2, base64_eval_1,
    base64_eval_neg (-3 : Int) (by norm_num)]
  simp [tokensOfCodes_cons, tokensOfCodes_nil, flushGroup, COMPRESSED_LEN, COMPRESSED]
  decide

/-! ## Concrete sequence encodings used by the writer scenarios -/

theorem base64str_eval_00 : base64str [0, 0] = "#00" := by
  rw [base64str, base64strTokens_eq]
  simp only [List.map_cons, List.map_nil, base64_eval_0]
  simp [tokensOfCodes_cons, tokensOfCodes_nil, flushGroup, COMPRESSED_LEN, COMPRESSED]
  decide

theorem base64str_eval_0111 : base64str [0, 1, 1, 1] = "#0111" := by
  rw [base64str, base64strTokens_eq]
  simp only [List.map_cons, List.map_nil, base64_eval_0, base64_eval_1]
  simp [tokensOfCodes_cons, tokensOfCodes_nil, flushGroup, COMPRESSED_LEN, COMPRESSED]
  decide

theorem base64str_eval_01 : base64str [0, 1] = "#01" := by
  rw [base64str, base64strTokens_eq]
  simp only [List.map_cons, List.map_nil, base64_eval_0, base64_eval_1]
  simp [tokensOfCodes_cons, tokensOfCodes_nil, flushGroup, COMPRESSED_LEN, COMPRESSED]
  decide

theorem base64str_eval_1 : base64str [1] = "1" := by
  rw [base64str, base64strTokens_eq]
  simp only [List.map_cons, List.map_nil, base64_eval_1]
  simp [tokensOfCodes_cons, tokensOfCodes_nil, flushGroup]
  decide

/-! ## Writer scenario theorems -/

/-- The cell of the end-to-end scenario: spans `[(1,2),(2,3),(3,4)]`,
`attr_vals = ⟨"key" ↦ ["1", 1, None]⟩`, name `"an_name"`. -/
def scenarioCell : List AttributeGroup :=
  [⟨[(1, 2), (2, 3), (3, 4)],
    [("key", [AttrVal.str "1", AttrVal.num 1, AttrVal.none])],
    some "an_name"⟩]

/-- C2: the writer made by `writer(output, 2, 2)` emits exactly the header
line `{"version":"0.3","rows":2,"cols":2}` at construction; but on the
scenario cell, `write` raises `KeyError` instead of emitting the claimed
`"@"`, `"$"` and cell lines: the second loop of `write` looks the raw
numeric value `1` up in a value dictionary keyed by the stringified values,
contradicting the expected output recorded in the spec and in
`tests/test_attributes.py`. -/
theorem c2_end_to_end_scenario :
    (writerInit 2 2).2.map render =
      ["\x7b\"version\":\"0.3\",\"rows\":2,\"cols\":2\x7d"] ∧
    writeCell (writerInit 2 2).1 scenarioCell = .error "KeyError" := by
  constructor
  · rfl
  · rfl

/-- C5: the writer's value-type handling. A truthy value of disallowed type
raises the format error, whose literal is
`"Attribute value must be a string, None or a number. Was: "` (no comma
before `or`, with the offending value appended) rather than the claimed
`"Attribute value must be a string, None, or a number"`; `None` and empty
values are skipped from dictionary assignment and encoded as the sentinel
`0` without error; but a (nonzero) numeric value, though stringified during
dictionary assignment, raises `KeyError` during encoding instead of being
written without error, because the encoding loop looks the raw number up
among the stringified keys. -/
theorem c5_value_type_handling :
    writeCell ⟨[], []⟩
        [⟨[(0, 1)], [("k", [AttrVal.num 1])], Option.none⟩] = .error "KeyError" ∧
    writeCell ⟨[], []⟩
        [⟨[(0, 1)], [("k", [AttrVal.other true])], Option.none⟩] = .error ATTR_ERR ∧
    writeCell ⟨[], []⟩
        [⟨[(0, 1), (2, 3)], [("k", [AttrVal.none, AttrVal.str ""])], Option.none⟩] =
      .ok (⟨[("k", 1)], [("k", [])]⟩,
        [J.arr [J.str "@", J.str "k"],
         J.arr [J.str "#0111", J.arr [J.num 1, J.str "#00"]]]) := by
  refine ⟨rfl, rfl, ?_⟩
  have h1 : writeCell ⟨[], []⟩
      [⟨[(0, 1), (2, 3)], [("k", [AttrVal.none, AttrVal.str ""])], Option.none⟩] =
      .ok (⟨[("k", 1)], [("k", [])]⟩,
        [J.arr [J.str "@", J.str "k"],
         J.arr [J.str (base64str [0, 1, 1, 1]),
           J.arr [J.num 1, J.str (base64str [0, 0])]]]) := rfl
  rw [h1, base64str_eval_0111, base64str_eval_00]

/-! ## Association list lemmas -/

theorem lookup_append_some {α : Type} {l : List (String × α)} (l' : List (String × α))
    {k : String} {v : α} (h : List.lookup k l = some v) :
    List.lookup k (l ++ l') = some v := by
  induction l with
  | nil => simp [List.lookup] at h
  | cons p rest ih =>
    cases p with
    | mk a b =>
      rw [List.cons_append, List.lookup]
      rw [List.lookup] at h
      by_cases hk : k = a
      · simpa [hk] using h
      · have hne : (k == a) = false := by simpa using hk
        rw [hne] at h ⊢
        exact ih h

theorem lookup_append_none {α : Type} {l l' : List (String × α)} {k : String}
    (h : List.lookup k (l ++ l') = Option.none) : List.lookup k l = Option.none := by
  cases hl : List.lookup k l with
  | none => rfl
  | some v => rw [lookup_append_some l' hl] at h; exact absurd h (by simp)

theorem lookup_isSome_append {α : Type} {l : List (String × α)} (l' : List (String × α))
    {k : String} (h : (List.lookup k l).isSome) : (List.lookup k (l ++ l')).isSome := by
  cases hl : List.lookup k l with
  | none => rw [hl] at h; simp at h
  | some v => rw [lookup_append_some l' hl]; rfl

theorem lookup_aupdate_eq {α : Type} (l : List (String × α)) (k : String) (v : α) :
    List.lookup k (aupdate l k v) = some v := by
  induction l with
  | nil => simp [aupdate, List.lookup]
  | cons p rest ih =>
    cases p with
    | mk a b =>
      rw [aupdate]
      by_cases hk : a = k
      · rw [if_pos hk, List.lookup]
        simp
      · rw [if_neg hk, List.lookup]
        have hne : (k == a) = false := by
          simp only [beq_eq_false_iff_ne, ne_eq]
          exact fun hc => hk hc.symm
        rw [hne]
        exact ih

theorem lookup_aupdate_ne {α : Type} (l : List (String × α)) (k k' : String) (v : α)
    (h : k' ≠ k) : List.lookup k' (aupdate l k v) = List.lookup k' l := by
  induction l with
  | nil =>
    simp only [aupdate, List.lookup]
    have hne : (k' == k) = false := by simpa using h
    rw [hne]
  | cons p rest ih =>
    cases p with
    | mk a b =>
      rw [aupdate]
      by_cases hk : a = k
      · subst hk
        rw [if_pos rfl, List.lookup, List.lookup]
        have hne : (k' == a) = false := by simpa using h
        rw [hne]
      · rw [if_neg hk, List.lookup, List.lookup]
        cases hba : (k' == a)
        · exact ih
        · rfl

theorem mem_aupdate {α : Type} {l : List (String × α)} {k : String} {v : α}
    {q : String × α} (h : q ∈ aupdate l k v) : q = (k, v) ∨ q ∈ l := by
  induction l with
  | nil => simpa [aupdate] using h
  | cons p rest ih =>
    cases p with
    | mk a b =>
      rw [aupdate] at h
      by_cases hk : a = k
      · rw [if_pos hk] at h
        rcases List.mem_cons.mp h with rfl | h
        · exact Or.inl rfl
        · exact Or.inr (List.mem_cons_of_mem _ h)
      · rw [if_neg hk] at h
        rcases List.mem_cons.mp h with rfl | h
        · exact Or.inr (by simp)
        · rcases ih h with h | h
          · exact Or.inl h
          · exact Or.inr (List.mem_cons_of_mem _ h)

theorem lookup_mem {α : Type} {l : List (String × α)} {k : String} {v : α}
    (h : List.lookup k l = some v) : (k, v) ∈ l := by
  induction l with
  | nil => simp [List.lookup] at h
  | cons p rest ih =>
    cases p with
    | mk a b =>
      rw [List.lookup] at h
      cases hba : (k == a) with
      | true =>
        rw [hba] at h
        simp only [Option.some.injEq] at h
        subst h
        have : k = a := by simpa using hba
        subst this
        simp
      | false =>
        rw [hba] at h
        exact List.mem_cons_of_mem _ (ih h)

/-! ## C8: span/value length mismatch raises -/

theorem spanValLoop_error (attrs : List (String × Nat))
    (values : List (String × List (String × Nat))) (nSpans : Nat) :
    ∀ avs : List (String × List AttrVal), ∀ span_val : List J,
      (∃ p ∈ avs, (p.2).length ≠ nSpans) →
      ∃ msg, spanValLoop attrs values nSpans span_val avs = .error msg := by
  intro avs
  induction avs with
  | nil =>
    intro _ h
    simp at h
  | cons p rest ih =>
    intro span_val h
    obtain ⟨q, hq, hlen⟩ := h
    cases p with
    | mk attr vals =>
      rw [spanValLoop]
      by_cases hsp : nSpans = vals.length
      · rw [if_pos hsp]
        have hq' : q ∈ rest := by
          rcases List.mem_cons.mp hq with rfl | h'
          · exact absurd hsp.symm (by simpa using hlen)
          · exact h'
        cases hl : List.lookup attr attrs with
        | none => exact ⟨"KeyError", rfl⟩
        | some aid =>
          cases he : encodeVals ((List.lookup attr values).getD []) vals with
          | error e => exact ⟨e, rfl⟩
          | ok codes =>
            obtain ⟨msg, hmsg⟩ := ih _ ⟨q, hq', hlen⟩
            exact ⟨msg, hmsg⟩
      · rw [if_neg hsp]
        exact ⟨_, rfl⟩

/-- `procGroups` on a cons cell, when the dictionary loop of the head group
succeeds. -/
theorem procGroups_cons_ok {attrs : List (String × Nat)}
    {values : List (String × List (String × Nat))} {na : List String}
    {nv : List (String × List String)} {cellJ : List J} {g : AttributeGroup}
    {rest : List AttributeGroup}
    {r1 : List (String × Nat) × List (String × List (String × Nat)) ×
      List String × List (String × List String)}
    (h : procAttrVals attrs values na nv g.attr_vals = .ok r1) :
    procGroups attrs values na nv cellJ (g :: rest) =
      match spanValLoop r1.1 r1.2.1 g.spans.length
        (match g.name with
          | some nm => [J.str nm]
          | Option.none => []) g.attr_vals with
      | .error e => .error e
      | .ok span_val =>
        procGroups r1.1 r1.2.1 r1.2.2.1 r1.2.2.2
          (cellJ ++ [J.str (base64str (contig_spans g.spans)), J.arr span_val]) rest := by
  rw [procGroups, h]

theorem procGroups_cons_error {attrs : List (String × Nat)}
    {values : List (String × List (String × Nat))} {na : List String}
    {nv : List (String × List String)} {cellJ : List J} {g : AttributeGroup}
    {rest : List AttributeGroup} {e : String}
    (h : procAttrVals attrs values na nv g.attr_vals = .error e) :
    procGroups attrs values na nv cellJ (g :: rest) = .error e := by
  rw [procGroups, h]

theorem procGroups_error :
    ∀ gs : List AttributeGroup,
      (∃ g ∈ gs, ∃ p ∈ g.attr_vals, (p.2).length ≠ g.spans.length) →
      ∀ attrs values na nv cellJ,
        ∃ msg, procGroups attrs values na nv cellJ gs = .error msg := by
  intro gs
  induction gs with
  | nil =>
    intro h
    simp at h
  | cons g rest ih =>
    intro h attrs values na nv cellJ
    cases hr1 : procAttrVals attrs values na nv g.attr_vals with
    | error e => exact ⟨e, procGroups_cons_error hr1⟩
    | ok r1 =>
      rw [procGroups_cons_ok hr1]
      obtain ⟨g', hg', p, hp, hlen⟩ := h
      rcases List.mem_cons.mp hg' with rfl | hg'
      · obtain ⟨msg, hmsg⟩ := spanValLoop_error r1.1 r1.2.1 g'.spans.length
          g'.attr_vals
          (match g'.name with
            | some nm => [J.str nm]
            | Option.none => []) ⟨p, hp, hlen⟩
        rw [hmsg]
        exact ⟨msg, rfl⟩
      · cases hsv : spanValLoop r1.1 r1.2.1 g.spans.length
          (match g.name with
            | some nm => [J.str nm]
            | Option.none => []) g.attr_vals with
        | error e => exact ⟨e, rfl⟩
        | ok span_val =>
          exact ih ⟨g', hg', p, hp, hlen⟩ _ _ _ _ _

/-- C8: a `write()` call in which some attribute group has an `attr_vals`
entry whose value-list length differs from the group's span count raises a
fatal format error: the precondition `len(vals) == len(group.spans)` is
asserted for every attribute of every group before the group is encoded. -/
theorem c8_length_mismatch_raises (st : WriterState) (cell : List AttributeGroup)
    (h : ∃ g ∈ cell, ∃ p ∈ g.attr_vals, (p.2).length ≠ g.spans.length) :
    ∃ msg, writeCell st cell = .error msg := by
  obtain ⟨msg, hmsg⟩ := procGroups_error cell h st.attrs st.values [] [] []
  refine ⟨msg, ?_⟩
  rw [writeCell, hmsg]

/-- Concrete instance of the span/value length mismatch error. -/
theorem c8_length_mismatch_raises_witness :
    (∃ g ∈ ([⟨[(0, 1)], [("k", [AttrVal.str "x", AttrVal.str "y"])], Option.none⟩] :
        List AttributeGroup), ∃ p ∈ g.attr_vals, (p.2).length ≠ g.spans.length) ∧
    ∃ msg, writeCell ⟨[], []⟩
      [⟨[(0, 1)], [("k", [AttrVal.str "x", AttrVal.str "y"])], Option.none⟩] =
        .error msg :=
  ⟨by decide, c8_length_mismatch_raises ⟨[], []⟩ _ (by decide)⟩

/-! ## Writer dictionary monotonicity -/

theorem procVals_facts : ∀ (vals : List AttrVal) (dv : List (String × Nat))
    (staged : List String) (dv' : List (String × Nat)) (staged' : List String),
    procVals dv staged vals = .ok (dv', staged') →
    (∃ add, dv' = dv ++ add) ∧
    (∀ v, v ∈ staged' → v ∈ staged ∨ List.lookup v dv = Option.none) := by
  intro vals
  induction vals with
  | nil =>
    intro dv staged dv' staged' h
    rw [procVals] at h
    simp only [Except.ok.injEq, Prod.mk.injEq] at h
    obtain ⟨rfl, rfl⟩ := h
    exact ⟨⟨[], by simp⟩, fun v hv => Or.inl hv⟩
  | cons v rest ih =>
    intro dv staged dv' staged' h
    rw [procVals] at h
    split at h
    · simp at h
    · rename_i s _
      split at h
      · rename_i hc
        obtain ⟨⟨add, hadd⟩, hstg⟩ := ih _ _ _ _ h
        refine ⟨⟨(s, dv.length + 1) :: add, by simp [hadd]⟩, ?_⟩
        intro w hw
        rcases hstg w hw with hw' | hw'
        · rcases List.mem_append.mp hw' with hw'' | hw''
          · exact Or.inl hw''
          · simp only [List.mem_singleton] at hw''
            subst hw''
            exact Or.inr (Option.isNone_iff_eq_none.mp hc.2)
        · exact Or.inr (lookup_append_none hw')
      · exact ih _ _ _ _ h
    · exact ih _ _ _ _ h

/-- Monotonicity and staging discipline of the per-group dictionary loop:
ids only grow, already-assigned attribute names are never staged for the
`"@"` batch, and already-assigned (attribute, value) pairs are never staged
for a `"$"` batch. -/
theorem procAttrVals_facts :
    ∀ (avs : List (String × List AttrVal)) (attrs : List (String × Nat))
      (values : List (String × List (String × Nat))) (na : List String)
      (nv : List (String × List String))
      (r : List (String × Nat) × List (String × List (String × Nat)) ×
        List String × List (String × List String)),
      procAttrVals attrs values na nv avs = .ok r →
      (∃ add, r.1 = attrs ++ add) ∧
      (∀ a dv, (List.lookup a attrs).isSome → List.lookup a values = some dv →
        ∃ add, List.lookup a r.2.1 = some (dv ++ add)) ∧
      (∀ a, a ∈ r.2.2.1 → a ∈ na ∨ List.lookup a attrs = Option.none) ∧
      (∀ a v dv, (List.lookup a attrs).isSome → List.lookup a values = some dv →
        (List.lookup v dv).isSome →
        ∀ q ∈ r.2.2.2, q.1 = a → v ∈ q.2 → ∃ q0 ∈ nv, q0.1 = a ∧ v ∈ q0.2) := by
  intro avs
  induction avs with
  | nil =>
    intro attrs values na nv r h
    rw [procAttrVals] at h
    simp only [Except.ok.injEq] at h
    subst h
    refine ⟨⟨[], by simp⟩, ?_, ?_, ?_⟩
    · intro a dv _ hv
      exact ⟨[], by simp [hv]⟩
    · intro a ha
      exact Or.inl ha
    · intro a v dv _ _ _ q hq hq1 hq2
      exact ⟨q, hq, hq1, hq2⟩
  | cons p rest ih =>
    rcases p with ⟨attr, vals⟩
    intro attrs values na nv r h
    simp only [procAttrVals] at h
    split_ifs at h with hc
    · -- `attr` is new: it is appended to `attrs` with a fresh value dict.
      split at h
      · simp at h
      · rename_i pr heq
        have hattr_none : List.lookup attr attrs = Option.none :=
          Option.isNone_iff_eq_none.mp hc
        obtain ⟨⟨add1, hadd1⟩, hN2, hN3, hN4⟩ := ih _ _ _ _ _ h
        refine ⟨⟨_, by rw [hadd1, List.append_assoc]⟩, ?_, ?_, ?_⟩
        · intro a dv ha hv
          have hax : a ≠ attr := by
            intro hax
            rw [hax, hattr_none] at ha
            simp at ha
          have ha' : (List.lookup a (attrs ++ [(attr, attrs.length + 1)])).isSome :=
            lookup_isSome_append _ ha
          have hv'' : List.lookup a (aupdate (aupdate values attr []) attr pr.1) =
              some dv := by
            rw [lookup_aupdate_ne _ _ _ _ hax, lookup_aupdate_ne _ _ _ _ hax]
            exact hv
          exact hN2 a dv ha' hv''
        · intro a ha
          rcases hN3 a ha with ha' | ha'
          · rcases List.mem_append.mp ha' with ha'' | ha''
            · exact Or.inl ha''
            · simp only [List.mem_singleton] at ha''
              subst ha''
              exact Or.inr hattr_none
          · exact Or.inr (lookup_append_none ha')
        · intro a v dv ha hv hvv q hq hq1 hq2
          have hax : a ≠ attr := by
            intro hax
            rw [hax, hattr_none] at ha
            simp at ha
          have ha' : (List.lookup a (attrs ++ [(attr, attrs.length + 1)])).isSome :=
            lookup_isSome_append _ ha
          have hv'' : List.lookup a (aupdate (aupdate values attr []) attr pr.1) =
              some dv := by
            rw [lookup_aupdate_ne _ _ _ _ hax, lookup_aupdate_ne _ _ _ _ hax]
            exact hv
          obtain ⟨q0, hq0, hq01, hq02⟩ := hN4 a v dv ha' hv'' hvv q hq hq1 hq2
          by_cases hstg : pr.2 = []
          · rw [if_pos hstg] at hq0
            exact ⟨q0, hq0, hq01, hq02⟩
          · rw [if_neg hstg] at hq0
            split at hq0
            · rename_i old hlk
              rcases mem_aupdate hq0 with rfl | hq0'
              · exfalso
                exact hax (by simpa using hq01.symm)
              · exact ⟨q0, hq0', hq01, hq02⟩
            · rcases List.mem_append.mp hq0 with hq0' | hq0'
              · exact ⟨q0, hq0', hq01, hq02⟩
              · exfalso
                simp only [List.mem_singleton] at hq0'
                subst hq0'
                exact hax (by simpa using hq01.symm)
    · -- `attr` already has an id: no dictionary reset happens.
      split at h
      · simp at h
      · rename_i pr heq
        obtain ⟨⟨add1, hadd1⟩, hN2, hN3, hN4⟩ := ih _ _ _ _ _ h
        refine ⟨⟨add1, hadd1⟩, ?_, hN3, ?_⟩
        · intro a dv ha hv
          by_cases hax : a = attr
          · subst hax
            rw [hv] at heq
            simp only [Option.getD_some] at heq
            obtain ⟨⟨add2, hadd2⟩, _⟩ := procVals_facts _ _ _ _ _ heq
            have hv'' : List.lookup a (aupdate values a pr.1) = some (dv ++ add2) := by
              rw [lookup_aupdate_eq, hadd2]
            obtain ⟨add3, hadd3⟩ := hN2 a (dv ++ add2) ha hv''
            exact ⟨add2 ++ add3, by rw [hadd3, List.append_assoc]⟩
          · have hv'' : List.lookup a (aupdate values attr pr.1) = some dv := by
              rw [lookup_aupdate_ne _ _ _ _ hax]
              exact hv
            exact hN2 a dv ha hv''
        · intro a v dv ha hv hvv q hq hq1 hq2
          have hstep : ∃ dv2, List.lookup a (aupdate values attr pr.1) = some dv2 ∧
              (List.lookup v dv2).isSome ∧
              (a = attr → ∃ add2, pr.1 = dv ++ add2 ∧
                procVals dv [] vals = .ok pr) := by
            by_cases hax : a = attr
            · subst hax
              rw [hv] at heq
              simp only [Option.getD_some] at heq
              obtain ⟨⟨add2, hadd2⟩, _⟩ := procVals_facts _ _ _ _ _ heq
              refine ⟨dv ++ add2, by rw [lookup_aupdate_eq, hadd2], ?_, ?_⟩
              · cases hl : List.lookup v dv with
                | none => rw [hl] at hvv; simp at hvv
                | some j => rw [lookup_append_some add2 hl]; rfl
              · intro _
                exact ⟨add2, hadd2, heq⟩
            · refine ⟨dv, ?_, hvv, fun hcon => absurd hcon hax⟩
              rw [lookup_aupdate_ne _ _ _ _ hax]
              exact hv
          obtain ⟨dv2, hdv2, hvv2, hattr_case⟩ := hstep
          obtain ⟨q0, hq0, hq01, hq02⟩ := hN4 a v dv2 ha hdv2 hvv2 q hq hq1 hq2
          by_cases hstg : pr.2 = []
          · rw [if_pos hstg] at hq0
            exact ⟨q0, hq0, hq01, hq02⟩
          · rw [if_neg hstg] at hq0
            have hstaged_absent : a = attr → v ∉ pr.2 := by
              intro hax hvpr
              obtain ⟨add2, _, heq'⟩ := hattr_case hax
              obtain ⟨_, hstg2⟩ := procVals_facts _ _ _ _ _ heq'
              rcases hstg2 v hvpr with hv0 | hv0
              · simp at hv0
              · rw [hv0] at hvv
                simp at hvv
            split at hq0
            · rename_i old hlk
              rcases mem_aupdate hq0 with rfl | hq0'
              · have haeq : attr = a := by simpa using hq01
                rcases List.mem_append.mp hq02 with hv0 | hv0
                · exact ⟨(attr, old), lookup_mem hlk, by simpa using haeq, hv0⟩
                · exact absurd hv0 (hstaged_absent haeq.symm)
              · exact ⟨q0, hq0', hq01, hq02⟩
            · rcases List.mem_append.mp hq0 with hq0' | hq0'
              · exact ⟨q0, hq0', hq01, hq02⟩
              · exfalso
                simp only [List.mem_singleton] at hq0'
                subst hq0'
                have haeq : attr = a := by simpa using hq01
                exact hstaged_absent haeq.symm hq02

/-- The group loop preserves the dictionary monotonicity and staging facts
of `procAttrVals` across all groups of a cell. -/
theorem procGroups_facts :
    ∀ (gs : List AttributeGroup) (attrs : List (String × Nat))
      (values : List (String × List (String × Nat))) (na : List String)
      (nv : List (String × List String)) (cellJ : List J)
      (r : List (String × Nat) × List (String × List (String × Nat)) ×
        List String × List (String × List String) × List J),
      procGroups attrs values na nv cellJ gs = .ok r →
      (∃ add, r.1 = attrs ++ add) ∧
      (∀ a dv, (List.lookup a attrs).isSome → List.lookup a values = some dv →
        ∃ add, List.lookup a r.2.1 = some (dv ++ add)) ∧
      (∀ a, a ∈ r.2.2.1 → a ∈ na ∨ List.lookup a attrs = Option.none) ∧
      (∀ a v dv, (List.lookup a attrs).isSome → List.lookup a values = some dv →
        (List.lookup v dv).isSome →
        ∀ q ∈ r.2.2.2.1, q.1 = a → v ∈ q.2 → ∃ q0 ∈ nv, q0.1 = a ∧ v ∈ q0.2) := by
  intro gs
  induction gs with
  | nil =>
    intro attrs values na nv cellJ r h
    rw [procGroups] at h
    simp only [Except.ok.injEq] at h
    subst h
    refine ⟨⟨[], by simp⟩, ?_, ?_, ?_⟩
    · intro a dv _ hv
      exact ⟨[], by simp [hv]⟩
    · intro a ha
      exact Or.inl ha
    · intro a v dv _ _ _ q hq hq1 hq2
      exact ⟨q, hq, hq1, hq2⟩
  | cons g rest ih =>
    intro attrs values na nv cellJ r h
    cases hr1 : procAttrVals attrs values na nv g.attr_vals with
    | error e =>
      rw [procGroups_cons_error hr1] at h
      simp at h
    | ok r1 =>
      rw [procGroups_cons_ok hr1] at h
      split at h
      · simp at h
      · obtain ⟨A1, A2, A3, A4⟩ := procAttrVals_facts _ _ _ _ _ _ hr1
        obtain ⟨G1, G2, G3, G4⟩ := ih _ _ _ _ _ _ h
        obtain ⟨add1, hadd1⟩ := A1
        refine ⟨?_, ?_, ?_, ?_⟩
        · obtain ⟨add2, hadd2⟩ := G1
          exact ⟨add1 ++ add2, by rw [hadd2, hadd1, List.append_assoc]⟩
        · intro a dv ha hv
          obtain ⟨add3, hadd3⟩ := A2 a dv ha hv
          have ha' : (List.lookup a r1.1).isSome := by
            rw [hadd1]
            exact lookup_isSome_append _ ha
          obtain ⟨add4, hadd4⟩ := G2 a (dv ++ add3) ha' hadd3
          exact ⟨add3 ++ add4, by rw [hadd4, List.append_assoc]⟩
        · intro a hmem
          rcases G3 a hmem with h' | h'
          · exact A3 a h'
          · rw [hadd1] at h'
            exact Or.inr (lookup_append_none h')
        · intro a v dv ha hv hvv q hq hq1 hq2
          obtain ⟨add3, hadd3⟩ := A2 a dv ha hv
          have ha' : (List.lookup a r1.1).isSome := by
            rw [hadd1]
            exact lookup_isSome_append _ ha
          have hvv' : (List.lookup v (dv ++ add3)).isSome := by
            cases hl : List.lookup v dv with
            | none => rw [hl] at hvv; simp at hvv
            | some j => rw [lookup_append_some add3 hl]; rfl
          obtain ⟨q0, hq0, hq01, hq02⟩ := G4 a v (dv ++ add3) ha' hadd3 hvv' q hq hq1 hq2
          exact A4 a v dv ha hv hvv q0 hq0 hq01 hq02

/-- C3: dictionary-id stability and no re-emission. For every successful
`write()`: (1) every attribute id present before the call is unchanged
after it; (2) every (attribute, value) id present before the call is
unchanged after it; (3) the output is dictionary-update records (one
optional `"@"` batch of the newly staged names, then one `"$"` batch per
attribute with newly staged values) followed by exactly one cell record,
and an attribute name (respectively an (attribute, value) pair) that
already has an id is never contained in the `"@"` batch (respectively in
its attribute's `"$"` batch). -/
theorem c3_dictionary_id_stability (st : WriterState) (cell : List AttributeGroup)
    (st' : WriterState) (out : List J) (h : writeCell st cell = .ok (st', out)) :
    (∀ a i, List.lookup a st.attrs = some i → List.lookup a st'.attrs = some i) ∧
    (∀ a dv v j, (List.lookup a st.attrs).isSome →
      List.lookup a st.values = some dv → List.lookup v dv = some j →
      ∃ dv', List.lookup a st'.values = some dv' ∧ List.lookup v dv' = some j) ∧
    (∃ (na_f : List String) (nv_f : List (String × List String)) (cellJ : List J),
      out = (if na_f ≠ [] then [J.arr (J.str "@" :: na_f.map J.str)] else []) ++
        nv_f.map (fun q => J.arr (J.str "$" :: J.str q.1 :: q.2.map J.str)) ++
        [J.arr cellJ] ∧
      (∀ a, (List.lookup a st.attrs).isSome → a ∉ na_f) ∧
      (∀ a v dv, (List.lookup a st.attrs).isSome →
        List.lookup a st.values = some dv → (List.lookup v dv).isSome →
        ∀ q ∈ nv_f, q.1 = a → v ∉ q.2)) := by
  cases hpg : procGroups st.attrs st.values [] [] [] cell with
  | error e =>
    rw [writeCell, hpg] at h
    simp at h
  | ok r =>
    rw [writeCell, hpg] at h
    simp only [Except.ok.injEq, Prod.mk.injEq] at h
    obtain ⟨hst', hout⟩ := h
    obtain ⟨G1, G2, G3, G4⟩ := procGroups_facts _ _ _ _ _ _ _ hpg
    refine ⟨?_, ?_, ?_⟩
    · intro a i hai
      rw [← hst']
      show List.lookup a r.1 = some i
      obtain ⟨add, hadd⟩ := G1
      rw [hadd]
      exact lookup_append_some add hai
    · intro a dv v j ha hv hj
      obtain ⟨add, hadd⟩ := G2 a dv ha hv
      refine ⟨dv ++ add, ?_, lookup_append_some add hj⟩
      rw [← hst']
      exact hadd
    · refine ⟨r.2.2.1, r.2.2.2.1, r.2.2.2.2, hout.symm, ?_, ?_⟩
      · intro a ha hmem
        rcases G3 a hmem with h' | h'
        · simp at h'
        · rw [h'] at ha
          simp at ha
      · intro a v dv ha hv hvv q hq hq1 hq2
        obtain ⟨q0, hq0, _, _⟩ := G4 a v dv ha hv hvv q hq hq1 hq2
        simp at hq0

/-- Concrete instance of dictionary-id stability: re-writing a cell whose
attribute and value already have ids emits no dictionary records and leaves
the id of `"a"` at 1. -/
theorem c3_dictionary_id_stability_witness :
    writeCell ⟨[("a", 1)], [("a", [("x", 1)])]⟩
        [⟨[(0, 1)], [("a", [AttrVal.str "x"])], Option.none⟩] =
      .ok (⟨[("a", 1)], [("a", [("x", 1)])]⟩,
        [J.arr [J.str "#01", J.arr [J.num 1, J.str "1"]]]) ∧
    List.lookup "a" ([("a", 1)] : List (String × Nat)) = some 1 := by
  have h1 : writeCell ⟨[("a", 1)], [("a", [("x", 1)])]⟩
      [⟨[(0, 1)], [("a", [AttrVal.str "x"])], Option.none⟩] =
      .ok (⟨[("a", 1)], [("a", [("x", 1)])]⟩,
        [J.arr [J.str (base64str [0, 1]), J.arr [J.num 1, J.str (base64str [1])]]]) := rfl
  rw [base64str_eval_01, base64str_eval_1] at h1
  exact ⟨h1, (c3_dictionary_id_stability _ _ _ _ h1).1 "a" 1 rfl⟩

/-! ## Offset reconciliation lemmas -/

/-- Looking a character offset up in the byte-offset table built from
`char_offset = c0` onward yields the starting byte offset plus the UTF-8
length of the first `i` characters. -/
theorem find_byteOffsetsAux : ∀ (cell : List Char) (c0 b0 i : Nat),
    i ≤ cell.length →
    List.find? (fun p => (p.1 : Int) == ((c0 + i : Nat) : Int))
      (byteOffsetsAux cell c0 b0) = some (c0 + i, b0 + utf8Len (cell.take i)) := by
  intro cell
  induction cell with
  | nil =>
    intro c0 b0 i hi
    have hi0 : i = 0 := by simpa using hi
    subst hi0
    simp [byteOffsetsAux, List.find?, utf8Len]
  | cons ch rest ih =>
    intro c0 b0 i hi
    cases i with
    | zero =>
      simp [byteOffsetsAux, List.find?, utf8Len]
    | succ i' =>
      rw [byteOffsetsAux, List.find?]
      dsimp only
      have hne : (((c0 : Nat) : Int) == (((c0 + (i' + 1) : Nat)) : Int)) = false := by
        simp only [beq_eq_false_iff_ne, ne_eq, Int.natCast_inj]
        omega
      rw [hne]
      have hc : c0 + (i' + 1) = (c0 + 1) + i' := by omega
      rw [hc, ih (c0 + 1) (b0 + ch.utf8Size) i' (by simpa using hi)]
      simp only [List.take_succ_cons, utf8Len, List.map_cons, List.sum_cons]
      congr 2
      omega

theorem lookupByteOffset_eval (cell : List Char) (i : Nat) (hi : i ≤ cell.length) :
    lookupByteOffset (byte_offsets cell) ((i : Nat) : Int) = .ok (utf8Len (cell.take i)) := by
  have h := find_byteOffsetsAux cell 0 0 i hi
  simp only [Nat.zero_add] at h
  rw [lookupByteOffset, byte_offsets, h]

theorem lookupByteOffset_eval_int (cell : List Char) (k : Int) (h0 : 0 ≤ k)
    (hk : k ≤ cell.length) :
    lookupByteOffset (byte_offsets cell) k = .ok (utf8Len (cell.take k.toNat)) := by
  have e : ((k.toNat : Nat) : Int) = k := Int.toNat_of_nonneg h0
  conv_lhs => rw [← e]
  exact lookupByteOffset_eval cell k.toNat (by omega)

theorem adjustSpan_eval (cell : List Char) (sp : Int × Int)
    (h1 : 0 ≤ sp.1) (h2 : sp.1 ≤ cell.length) (h3 : 0 ≤ sp.2) (h4 : sp.2 ≤ cell.length) :
    adjustSpan (byte_offsets cell) sp =
      .ok ((utf8Len (cell.take sp.1.toNat) : Int), (utf8Len (cell.take sp.2.toNat) : Int)) := by
  rw [adjustSpan, lookupByteOffset_eval_int cell sp.1 h1 h2,
    lookupByteOffset_eval_int cell sp.2 h3 h4]
  rfl

/-- Successful effectful map with a pointwise-known function. -/
theorem mapE_ok_of_fn {α β : Type} (f : α → Except String β) (g : α → β) :
    ∀ l : List α, (∀ x ∈ l, f x = .ok (g x)) → mapE f l = .ok (l.map g) := by
  intro l
  induction l with
  | nil => intro _; rfl
  | cons x xs ih =>
    intro h
    rw [mapE, h x (by simp), ih (fun y hy => h y (by simp [hy]))]
    rfl

/-- Successful effectful map relates input and output pointwise. -/
theorem mapE_ok_forall₂ {α β : Type} (f : α → Except String β) :
    ∀ (l : List α) (l' : List β), mapE f l = .ok l' →
      List.Forall₂ (fun x y => f x = .ok y) l l' := by
  intro l
  induction l with
  | nil =>
    intro l' h
    rw [mapE] at h
    simp only [Except.ok.injEq] at h
    subst h
    exact List.Forall₂.nil
  | cons x xs ih =>
    intro l' h
    rw [mapE] at h
    split at h
    · simp at h
    · rename_i y hy
      split at h
      · simp at h
      · rename_i ys hys
        simp only [Except.ok.injEq] at h
        subst h
        exact List.Forall₂.cons hy (ih ys hys)

/-- C6: for every cell text and every enriched cell whose span endpoints
all lie within `0..len(text)` as character offsets,
`adjust_span_offsets_from_char_to_byte` replaces every span `(start, end)`
of every attribute group with `(byte_offset start, byte_offset end)`, where
`byte_offset i` is the cumulative UTF-8 byte length of the first `i`
characters (including the one-past-the-end position). -/
theorem c6_char_to_byte_offsets (cell : List Char) (ec : List AttributeGroup)
    (h : ∀ g ∈ ec, ∀ sp ∈ g.spans,
      0 ≤ sp.1 ∧ sp.1 ≤ cell.length ∧ 0 ≤ sp.2 ∧ sp.2 ≤ cell.length) :
    adjust_span_offsets_from_char_to_byte cell ec =
      .ok (ec.map fun g =>
        { g with spans := g.spans.map fun sp =>
            ((utf8Len (cell.take sp.1.toNat) : Int),
             (utf8Len (cell.take sp.2.toNat) : Int)) }) := by
  rw [adjust_span_offsets_from_char_to_byte]
  refine mapE_ok_of_fn _ _ ec ?_
  intro g hg
  rw [adjustGroup,
    mapE_ok_of_fn _ _ g.spans (fun sp hsp => by
      obtain ⟨h1, h2, h3, h4⟩ := h g hg sp hsp
      exact adjustSpan_eval cell sp h1 h2 h3 h4)]

/-- Concrete instance: in `"déf"`, the character span `(1,3)` covering
`"éf"` maps to the byte span `(1,4)` because `'é'` occupies two bytes. -/
theorem c6_char_to_byte_offsets_witness :
    (∀ g ∈ ([⟨[(1, 3)], [], Option.none⟩] : List AttributeGroup), ∀ sp ∈ g.spans,
      0 ≤ sp.1 ∧ sp.1 ≤ ("déf".data).length ∧
      0 ≤ sp.2 ∧ sp.2 ≤ ("déf".data).length) ∧
    adjust_span_offsets_from_char_to_byte ("déf".data)
      [⟨[(1, 3)], [], Option.none⟩] = .ok [⟨[(1, 4)], [], Option.none⟩] := by
  refine ⟨by decide, ?_⟩
  have h := c6_char_to_byte_offsets ("déf".data)
    [⟨[(1, 3)], [], Option.none⟩] (by decide)
  rw [h]
  decide

/-- C9: `adjust_span_offsets_from_char_to_byte` modifies only the spans of
each attribute group: whenever it succeeds, the output groups are in
one-to-one correspondence with the input groups, with identical
`attr_vals` and identical optional `name`. -/
theorem c9_adjust_frame (cell : List Char) (ec ec' : List AttributeGroup)
    (h : adjust_span_offsets_from_char_to_byte cell ec = .ok ec') :
    List.Forall₂ (fun g g' => g'.attr_vals = g.attr_vals ∧ g'.name = g.name) ec ec' := by
  rw [adjust_span_offsets_from_char_to_byte] at h
  have h2 := mapE_ok_forall₂ _ ec ec' h
  refine List.Forall₂.imp ?_ h2
  intro g g' hadj
  rw [adjustGroup] at hadj
  split at hadj
  · simp at hadj
  · simp only [Except.ok.injEq] at hadj
    subst hadj
    exact ⟨rfl, rfl⟩

/-- Concrete instance of the frame condition on the `"déf"` example. -/
theorem c9_adjust_frame_witness :
    adjust_span_offsets_from_char_to_byte ("déf".data)
      [⟨[(1, 3)], [("k", [AttrVal.str "v"])], some "NM"⟩] =
      .ok [⟨[(1, 4)], [("k", [AttrVal.str "v"])], some "NM"⟩] ∧
    List.Forall₂ (fun g g' : AttributeGroup => g'.attr_vals = g.attr_vals ∧ g'.name = g.name)
      [⟨[(1, 3)], [("k", [AttrVal.str "v"])], some "NM"⟩]
      [⟨[(1, 4)], [("k", [AttrVal.str "v"])], some "NM"⟩] :=
  ⟨by decide,
    c9_adjust_frame ("déf".data)
      [⟨[(1, 3)], [("k", [AttrVal.str "v"])], some "NM"⟩]
      [⟨[(1, 4)], [("k", [AttrVal.str "v"])], some "NM"⟩] (by decide)⟩

/-- Concrete instance of the positive-integer digit characterization. -/
theorem c4_encoder_characterization_witness :
    0 < (83 : Nat) ∧ base64 ((83 : Nat) : Int) = specDigits 83 :=
  ⟨by norm_num, c4_encoder_characterization.1.2 83 (by norm_num)⟩

/-- Concrete instance of the silent empty encoding of a negative input. -/
theorem c10_negative_base64_empty_witness :
    (-1 : Int) < 0 ∧ base64 (-1 : Int) = [] :=
  ⟨by norm_num, c10_negative_base64_empty.1 (-1) (by norm_num)⟩

end Watchful
